import Mathlib

/-!
Verification of the type-codec layer of the `rlp` crate (`src/impls.rs`).

Codecs are settled at the payload level: the stream engine's `encode_value` /
`encode_iter` primitives emit the given bytes as a single value-node payload,
and `decode_value` hands the payload bytes to the type-specific closure, so an
encoder is embedded as a function producing the payload byte list and a decoder
as a function consuming it.  Bytes are `Nat` (the Rust `u8` type guarantees
values below 256; theorems that need the bound state it).  Machine-integer
wraparound is made explicit with `% 2 ^ w` wherever the Rust code can wrap.
-/

/-- Modelled from the spec: the closed set of decode failure kinds (spec section 7).
The enum itself lives in `error.rs`, outside the provided sources; `impls.rs`
references exactly these five variants. -/
inductive DecoderError where
  | RlpIsTooBig
  | RlpIsTooShort
  | RlpInvalidIndirection
  | RlpIncorrectListLen
  | RlpExpectedToBeData
  deriving DecidableEq, Repr

/-- Big-endian byte representation of `v` on `W` bytes, the model of
`$name::to_be_bytes` (least-significant byte last). -/
def beBytes : Nat → Nat → List Nat
  | 0, _ => []
  | W + 1, v => beBytes W (v / 256) ++ [v % 256]

/-- Big-endian accumulation `res += byte << ((l - 1 - i) * 8)` of the decode
loops in `impls.rs`: byte `i` of an `l`-byte payload contributes at position
`l - 1 - i`. -/
def beAccum : List Nat → Nat
  | [] => 0
  | b :: rest => b * 256 ^ rest.length + beAccum rest

/-- The unsigned encoders drop `leading_zeros() / 8` bytes from the big-endian
buffer, i.e. exactly the leading zero bytes. -/
def stripZeros (buffer : List Nat) : List Nat :=
  buffer.dropWhile (fun b => b == 0)

/-- `impl Encodable for u8` (`impls.rs:113`): a non-zero byte is emitted as
itself, zero as the empty payload. -/
def encode_u8 (v : Nat) : List Nat :=
  if v ≠ 0 then [v] else []

/-- `impl Decodable for u8` (`impls.rs:123`). -/
def decode_u8 (bytes : List Nat) : Except DecoderError Nat :=
  match bytes with
  | [b] => if b ≠ 0 then Except.ok b else Except.error DecoderError.RlpInvalidIndirection
  | [] => Except.ok 0
  | _ => Except.error DecoderError.RlpIsTooBig

/-- `impl_encodable_for_u!` (`impls.rs:134`) at byte width `W`: strip the
leading zero bytes from the `W`-byte big-endian buffer. -/
def encode_u (W v : Nat) : List Nat :=
  stripZeros (beBytes W v)

/-- `impl_decodable_for_u!` (`impls.rs:146`) at byte width `W`: payloads of
length 0 or 1 are delegated to the `u8` decoder (the source calls
`u8::decode(rlp)`, which re-reads the same payload), lengths up to `W` require
a non-zero first byte and accumulate big-endian, longer payloads are too big. -/
def decode_u (W : Nat) (bytes : List Nat) : Except DecoderError Nat :=
  if bytes.length ≤ 1 then decode_u8 bytes
  else if bytes.length ≤ W then
    if bytes.headD 0 = 0 then Except.error DecoderError.RlpInvalidIndirection
    else Except.ok (beAccum bytes)
  else Except.error DecoderError.RlpIsTooBig

/-- Free function `decode_usize` (`impls.rs:19`), at the 64-bit host pointer
width (`mem::size_of::<usize>() = 8`).  `none` models a Rust panic: when the
payload is empty the length guard `l <= 8` still matches and `bytes[0]`
indexes out of bounds. -/
def decode_usize (bytes : List Nat) : Option (Except DecoderError Nat) :=
  if bytes.length ≤ 8 then
    match bytes with
    | [] => none
    | b :: _ =>
      if b = 0 then some (Except.error DecoderError.RlpInvalidIndirection)
      else some (Except.ok (beAccum bytes))
  else some (Except.error DecoderError.RlpIsTooBig)

/-- Modelled from the spec: the stream engine's `encode_iter` emits the bytes
of the iterator as a single value-node payload (spec section 6). -/
def encode_iter (bytes : List Nat) : List Nat := bytes

/-- `impl Encodable for bool` (`impls.rs:48`):
`encode_iter(once(if *self { 1u8 } else { 0 }))`. -/
def bool_rlp_append (b : Bool) : List Nat :=
  encode_iter [if b then 1 else 0]

/-- `impl Decodable for bool` (`impls.rs:54`). -/
def bool_decode (bytes : List Nat) : Except DecoderError Bool :=
  match bytes with
  | [] => Except.ok false
  | [b] => Except.ok (b ≠ 0)
  | _ => Except.error DecoderError.RlpIsTooBig

/-- `impl Encodable for usize` (`impls.rs:180`): `(*self as u64).rlp_append(s)`
on a 64-bit host (`v < 2 ^ 64`, so the `as u64` widening is `v % 2 ^ 64`). -/
def usize_rlp_append (v : Nat) : List Nat :=
  encode_u 8 (v % 2 ^ 64)

/-- `impl Decodable for usize` (`impls.rs:186`):
`u64::decode(rlp).map(|value| value as usize)` on a 64-bit host. -/
def usize_decode (bytes : List Nat) : Except DecoderError Nat :=
  (decode_u 8 bytes).map (fun value => value % 2 ^ 64)

/-- The `u128` bit pattern of the `i128` value `i` (`i as u128`). -/
def toU128 (i : Int) : Nat :=
  (i % (2 ^ 128 : Int)).toNat

/-- The zigzag step of `impl_encodable_for_i!` (`impls.rs:216`):
`((i << 1) ^ (i >> 127)) as u128` where `i = *self as i128`.  The left shift
wraps modulo `2 ^ 128`; the arithmetic right shift by 127 is all-ones for
negative `i` and zero otherwise. -/
def zigzagEnc (v : Int) : Nat :=
  ((2 * toU128 v) % 2 ^ 128) ^^^ (if v < 0 then 2 ^ 128 - 1 else 0)

/-- `impl_encodable_for_i!` (`impls.rs:216`): encode the zigzag value with the
128-bit unsigned encoder (same strip of leading zero bytes). -/
def encode_i (v : Int) : List Nat :=
  encode_u 16 (zigzagEnc v)

/-- The recovery step of `impl_decodable_for_i!` (`impls.rs:230`):
`(res >> 1) ^ (-((res & 1) as i128)) as u128` in the 128-bit unsigned domain. -/
def zigzagDec (res : Nat) : Nat :=
  (res / 2) ^^^ (if res % 2 = 1 then 2 ^ 128 - 1 else 0)

/-- The narrowing `as $name` of `impl_decodable_for_i!` for a target of `W`
bytes: truncate the `u128` bit pattern to `8 * W` bits and read it as a
two's-complement signed value. -/
def i_narrow (W : Nat) (u : Nat) : Int :=
  let m := u % 2 ^ (8 * W)
  if m < 2 ^ (8 * W - 1) then (m : Int) else (m : Int) - 2 ^ (8 * W)

/-- `impl_decodable_for_i!` (`impls.rs:230`) for a signed target of `W` bytes:
decode as `u128`, zigzag-recover, narrow. -/
def decode_i (W : Nat) (bytes : List Nat) : Except DecoderError Int :=
  match decode_u 16 bytes with
  | Except.ok res => Except.ok (i_narrow W (zigzagDec res))
  | Except.error err => Except.error err

/-- `impl_encodable_for_f!(f32, u32)` (`impls.rs:258`):
`u32::from_be_bytes(self.to_bits().to_be_bytes())` is the identity on the bit
pattern, which is then encoded as `u32`.  An `f32` is modelled by its IEEE-754
bit pattern (a `Nat` below `2 ^ 32`). -/
def f32_rlp_append (bits : Nat) : List Nat :=
  encode_u 4 bits

/-- `impl_decodable_for_f!(f32, u32)` (`impls.rs:269`): decode as `u32`, then
`f32::from_bits`, the identity on the bit pattern. -/
def f32_decode (bytes : List Nat) : Except DecoderError Nat :=
  match decode_u 4 bytes with
  | Except.ok num => Except.ok num
  | Except.error err => Except.error err

/-- `impl_encodable_for_f!(f64, u64)` (`impls.rs:258`), bit-pattern model. -/
def f64_rlp_append (bits : Nat) : List Nat :=
  encode_u 8 bits

/-- `impl_decodable_for_f!(f64, u64)` (`impls.rs:269`), bit-pattern model. -/
def f64_decode (bytes : List Nat) : Except DecoderError Nat :=
  match decode_u 8 bytes with
  | Except.ok num => Except.ok num
  | Except.error err => Except.error err

/-- `impl_array_rlp!` decode (`impls.rs:297`) for size `N`: compare the payload
length with `N`; on equality `copy_from_slice` copies the payload verbatim. -/
def decode_array (N : Nat) (bytes : List Nat) : Except DecoderError (List Nat) :=
  match compare bytes.length N with
  | Ordering.lt => Except.error DecoderError.RlpIsTooShort
  | Ordering.gt => Except.error DecoderError.RlpIsTooBig
  | Ordering.eq => Except.ok bytes

/-- `impl_array_rlp!` encode (`impls.rs:291`): the buffer verbatim. -/
def encode_array (bytes : List Nat) : List Nat := bytes

/-- Modelled from the spec: a wire node is either an atomic value payload or an
ordered list of child nodes (spec section 3); the engine primitives
`begin_list(count)` and `append` build a list node from its children, and
`item_count` / `val_at(i)` expose them again (spec section 6). -/
inductive Node where
  | value (bytes : List Nat)
  | list (children : List Node)

/-- `impl Encodable for Option<T>` (`impls.rs:82`): `None` is an empty list
node, `Some(value)` a list node with the single encoded child. -/
def option_rlp_append {α : Type} (enc : α → Node) : Option α → Node
  | Option.none => Node.list []
  | Option.some value => Node.list [enc value]

/-- `impl Decodable for Option<T>` (`impls.rs:99`), over the children of the
list node: `item_count` 1 decodes child 0, 0 gives `None`, anything else is
`RlpIncorrectListLen`. -/
def option_decode {α : Type} (dec : Node → Except DecoderError α)
    (children : List Node) : Except DecoderError (Option α) :=
  match children with
  | [child] => (dec child).map Option.some
  | [] => Except.ok Option.none
  | _ => Except.error DecoderError.RlpIncorrectListLen

theorem beBytes_length (W v : Nat) : (beBytes W v).length = W := by
  induction W generalizing v with
  | zero => rfl
  | succ k ih => simp [beBytes, ih]

theorem beAccum_append (xs : List Nat) (b : Nat) :
    beAccum (xs ++ [b]) = 256 * beAccum xs + b := by
  induction xs with
  | nil => simp [beAccum]
  | cons a rest ih =>
    rw [List.cons_append]
    show a * 256 ^ (rest ++ [b]).length + beAccum (rest ++ [b]) =
      256 * (a * 256 ^ rest.length + beAccum rest) + b
    rw [ih, List.length_append, List.length_singleton]
    ring

theorem beAccum_beBytes (W v : Nat) : beAccum (beBytes W v) = v % 256 ^ W := by
  induction W generalizing v with
  | zero => simp [beBytes, beAccum, Nat.mod_one]
  | succ k ih =>
    rw [beBytes, beAccum_append, ih, Nat.pow_succ, Nat.mul_comm (256 ^ k) 256,
      Nat.mod_mul]
    ring

theorem beAccum_stripZeros (xs : List Nat) : beAccum (stripZeros xs) = beAccum xs := by
  induction xs with
  | nil => rfl
  | cons a rest ih =>
    rw [stripZeros, List.dropWhile_cons]
    by_cases ha : a = 0
    · subst ha
      rw [if_pos (by simp)]
      show beAccum (stripZeros rest) = beAccum (0 :: rest)
      rw [ih]
      simp [beAccum]
    · rw [if_neg (by simpa using ha)]

theorem stripZeros_head_ne (xs : List Nat) (b : Nat) (rest : List Nat)
    (h : stripZeros xs = b :: rest) : b ≠ 0 := by
  induction xs with
  | nil => simp [stripZeros, List.dropWhile] at h
  | cons a as ih =>
    rw [stripZeros, List.dropWhile_cons] at h
    by_cases ha : a = 0
    · rw [if_pos (by simp [ha])] at h
      exact ih h
    · rw [if_neg (by simpa using ha)] at h
      rw [← (List.cons.injEq _ _ _ _).mp h |>.1]
      exact ha

theorem stripZeros_length_le (xs : List Nat) : (stripZeros xs).length ≤ xs.length := by
  induction xs with
  | nil => exact Nat.le_refl 0
  | cons a as ih =>
    rw [stripZeros, List.dropWhile_cons]
    by_cases ha : (a == 0) = true
    · rw [if_pos ha]
      exact Nat.le_succ_of_le ih
    · rw [if_neg ha]

/-- Round-trip of the width-`W` unsigned codec on in-range values. -/
theorem roundtrip_u (W v : Nat) (hv : v < 256 ^ W) :
    decode_u W (encode_u W v) = Except.ok v := by
  have hacc : beAccum (encode_u W v) = v := by
    rw [encode_u, beAccum_stripZeros, beAccum_beBytes, Nat.mod_eq_of_lt hv]
  have hlen : (encode_u W v).length ≤ W := by
    rw [encode_u]
    exact (stripZeros_length_le _).trans (le_of_eq (beBytes_length W v))
  rcases he : encode_u W v with _ | ⟨b, _ | ⟨b2, rest⟩⟩
  · rw [he] at hacc
    simp only [beAccum] at hacc
    simp [decode_u, decode_u8, ← hacc]
  · have hb : b ≠ 0 := stripZeros_head_ne (beBytes W v) b [] he
    rw [he] at hacc
    simp only [beAccum, List.length_nil, pow_zero, Nat.mul_one, Nat.add_zero] at hacc
    subst hacc
    simp [decode_u, decode_u8, hb]
  · have hb : b ≠ 0 := stripZeros_head_ne (beBytes W v) b (b2 :: rest) he
    rw [he] at hacc hlen
    have hgt : ¬ (b :: b2 :: rest).length ≤ 1 := by simp
    rw [decode_u, if_neg hgt, if_pos hlen]
    simp [hb, hacc]

/-- Xor with an all-ones mask is complement below `2 ^ k`. -/
theorem xor_allones (k n : Nat) (h : n < 2 ^ k) :
    n ^^^ (2 ^ k - 1) = 2 ^ k - 1 - n := by
  apply Nat.eq_of_testBit_eq
  intro i
  have hsub : 2 ^ k - 1 - n = 2 ^ k - (n + 1) := by omega
  rw [hsub, Nat.testBit_xor, Nat.testBit_two_pow_sub_one,
    Nat.testBit_two_pow_sub_succ h]
  by_cases hi : i < k
  · rw [decide_eq_true hi]
    cases n.testBit i <;> rfl
  · have hn : n.testBit i = false := by
      apply Nat.testBit_lt_two_pow
      exact Nat.lt_of_lt_of_le h (Nat.pow_le_pow_right (by omega) (by omega))
    simp [hi, hn]

/-- The decode-side zigzag recovery inverts the encode-side zigzag transform,
landing on the `u128` bit pattern of the original `i128` value. -/
theorem zigzag_inverse (v : Int) (h1 : -(2 ^ 127) ≤ v) (h2 : v < 2 ^ 127) :
    zigzagDec (zigzagEnc v) = toU128 v := by
  by_cases hv : v < 0
  · have hmod : v % (2 ^ 128 : Int) = v + 2 ^ 128 := by
      have : v + 2 ^ 128 = v + 2 ^ 128 * 1 := by ring
      rw [← Int.add_mul_emod_self_left (b := (2 ^ 128 : Int)) (c := 1)]
      rw [Int.emod_eq_of_lt (by omega) (by omega)]
      omega
    have hn : (toU128 v : Int) = v + 2 ^ 128 := by
      rw [toU128, hmod, Int.toNat_of_nonneg (by omega)]
    set n := toU128 v with hndef
    have hnlow : 2 ^ 127 ≤ n := by
      have : ((2 : Int) ^ 127 : Int) ≤ (n : Int) := by rw [hn]; push_cast; omega
      exact_mod_cast this
    have hnhigh : n < 2 ^ 128 := by
      have : (n : Int) < (2 : Int) ^ 128 := by rw [hn]; push_cast; omega
      exact_mod_cast this
    have hshift : (2 * n) % 2 ^ 128 = 2 * n - 2 ^ 128 := by omega
    have henc : zigzagEnc v = 2 ^ 128 - 1 - (2 * n - 2 ^ 128) := by
      rw [zigzagEnc, if_pos hv, ← hndef, hshift, xor_allones 128 _ (by omega)]
    rw [henc, zigzagDec]
    have hz : 2 ^ 128 - 1 - (2 * n - 2 ^ 128) = 2 * (2 ^ 128 - n) - 1 := by omega
    rw [hz, if_pos (by omega), xor_allones 128 _ (by omega)]
    omega
  · have h0 : 0 ≤ v := by omega
    have hmod : v % (2 ^ 128 : Int) = v := Int.emod_eq_of_lt h0 (by omega)
    have hn : (toU128 v : Int) = v := by
      rw [toU128, hmod, Int.toNat_of_nonneg h0]
    set n := toU128 v with hndef
    have hnhigh : n < 2 ^ 127 := by
      have : (n : Int) < (2 : Int) ^ 127 := by rw [hn]; push_cast; omega
      exact_mod_cast this
    have henc : zigzagEnc v = 2 * n := by
      rw [zigzagEnc, if_neg (by omega), ← hndef, Nat.xor_zero,
        Nat.mod_eq_of_lt (by omega)]
    rw [henc, zigzagDec, if_neg (by omega), Nat.xor_zero]
    omega

/-- Narrowing the `u128` bit pattern of `v` back to `W` bytes recovers `v` when
`v` fits in `W` bytes as a two's-complement value. -/
theorem i_narrow_toU128 (W : Nat) (hW : 1 ≤ W) (hW16 : W ≤ 16) (v : Int)
    (h1 : -(2 ^ (8 * W - 1)) ≤ v) (h2 : v < 2 ^ (8 * W - 1)) :
    i_narrow W (toU128 v) = v := by
  have hdvd : ((2 : Int) ^ (8 * W)) ∣ ((2 : Int) ^ 128) :=
    pow_dvd_pow 2 (by omega)
  have hMK : (2 : Nat) ^ (8 * W) = 2 * 2 ^ (8 * W - 1) := by
    conv_lhs => rw [show 8 * W = (8 * W - 1) + 1 from by omega]
    rw [Nat.pow_succ]
    ring
  have hMKi : ((2 : Int) ^ (8 * W)) = 2 * 2 ^ (8 * W - 1) := by
    exact_mod_cast hMK
  have hmod128 : 0 ≤ v % (2 ^ 128 : Int) := Int.emod_nonneg v (by positivity)
  have hm : ((toU128 v % 2 ^ (8 * W) : Nat) : Int) = v % (2 ^ (8 * W) : Int) := by
    rw [toU128, Int.natCast_mod, Int.toNat_of_nonneg hmod128, Nat.cast_pow,
      Nat.cast_ofNat, Int.emod_emod_of_dvd v hdvd]
  rw [i_narrow]
  by_cases hv : 0 ≤ v
  · have hveq : v % (2 ^ (8 * W) : Int) = v :=
      Int.emod_eq_of_lt hv (by omega)
    rw [hveq] at hm
    have hlt : toU128 v % 2 ^ (8 * W) < 2 ^ (8 * W - 1) := by
      have : ((toU128 v % 2 ^ (8 * W) : Nat) : Int) < ((2 ^ (8 * W - 1) : Nat) : Int) := by
        rw [hm]; push_cast; omega
      exact_mod_cast this
    simp only [hlt, if_true, hm]
  · have hveq : v % (2 ^ (8 * W) : Int) = v + 2 ^ (8 * W) := by
      have : v + 2 ^ (8 * W) = v + 2 ^ (8 * W) * 1 := by ring
      rw [← Int.add_mul_emod_self_left (b := (2 ^ (8 * W) : Int)) (c := 1)]
      rw [Int.emod_eq_of_lt (by omega) (by omega)]
      omega
    rw [hveq] at hm
    have hge : ¬ toU128 v % 2 ^ (8 * W) < 2 ^ (8 * W - 1) := by
      intro hcon
      have : ((toU128 v % 2 ^ (8 * W) : Nat) : Int) < ((2 ^ (8 * W - 1) : Nat) : Int) := by
        exact_mod_cast hcon
      rw [hm] at this
      push_cast at this
      omega
    simp only [hge, if_false, hm]
    omega

/-- Claim C1: for every unsigned integer type (u8 via its dedicated codec,
u16/u32/u64/u128 via the width-`W` codec) and every value `v` of that type,
decoding the payload produced by encoding `v` yields exactly `v`, including
the edge values 0 and the type's maximum. -/
theorem claim_C1_unsigned_roundtrip :
    (∀ v : Nat, v < 256 → decode_u8 (encode_u8 v) = Except.ok v) ∧
    (∀ W, W ∈ ([2, 4, 8, 16] : List Nat) → ∀ v : Nat, v < 256 ^ W →
      decode_u W (encode_u W v) = Except.ok v) := by
  constructor
  · intro v _
    by_cases h0 : v = 0
    · subst h0
      rfl
    · simp [encode_u8, decode_u8, h0]
  · intro W _ v hv
    exact roundtrip_u W v hv

/-- Witness for C1 at the maximum `u128` value. -/
theorem claim_C1_witness :
    decode_u 16 (encode_u 16 (2 ^ 128 - 1)) = Except.ok (2 ^ 128 - 1) :=
  claim_C1_unsigned_roundtrip.2 16 (by decide) (2 ^ 128 - 1) (by norm_num)

/-- Claim C2: for every unsigned integer type of byte width `W`, a payload of
length between 1 and `W` whose first byte is zero fails with
`RlpInvalidIndirection`; in particular `[0x00, 0x01]` fails for every
2-byte-or-wider unsigned type. -/
theorem claim_C2_leading_zero_rejected :
    (∀ bytes : List Nat, bytes.length = 1 → bytes.headD 1 = 0 →
      decode_u8 bytes = Except.error DecoderError.RlpInvalidIndirection) ∧
    (∀ W, W ∈ ([2, 4, 8, 16] : List Nat) → ∀ bytes : List Nat,
      1 ≤ bytes.length → bytes.length ≤ W → bytes.headD 1 = 0 →
      decode_u W bytes = Except.error DecoderError.RlpInvalidIndirection) ∧
    (∀ W, W ∈ ([2, 4, 8, 16] : List Nat) →
      decode_u W [0, 1] = Except.error DecoderError.RlpInvalidIndirection) := by
  have hgen : ∀ W, 2 ≤ W → ∀ bytes : List Nat,
      1 ≤ bytes.length → bytes.length ≤ W → bytes.headD 1 = 0 →
      decode_u W bytes = Except.error DecoderError.RlpInvalidIndirection := by
    intro W _ bytes h1 h2 h0
    match bytes with
    | [] => simp at h1
    | [b] =>
      simp only [List.headD_cons] at h0
      subst h0
      simp [decode_u, decode_u8]
    | b :: b2 :: rest =>
      simp only [List.headD_cons] at h0
      subst h0
      have hgt : ¬ (0 :: b2 :: rest).length ≤ 1 := by simp
      rw [decode_u, if_neg hgt, if_pos h2, if_pos (by rfl)]
  refine ⟨?_, ?_, ?_⟩
  · intro bytes h1 h0
    match bytes with
    | [b] =>
      simp only [List.headD_cons] at h0
      subst h0
      rfl
  · intro W hW bytes h1 h2 h0
    exact hgen W (by fin_cases hW <;> norm_num) bytes h1 h2 h0
  · intro W hW
    exact hgen W (by fin_cases hW <;> norm_num) [0, 1] (by simp)
      (by fin_cases hW <;> simp) rfl

/-- Witness for C2 on the canonical counter-payload `[0x00, 0x01]` at `u16`. -/
theorem claim_C2_witness :
    decode_u 2 [0, 1] = Except.error DecoderError.RlpInvalidIndirection :=
  claim_C2_leading_zero_rejected.2.2 2 (by decide)

/-- Claim C3 (refuted, code bug): on the empty payload `decode_usize` does not
return value 0 — the guard `l <= size_of::<usize>()` matches `l = 0` and the
code then evaluates `bytes[0]` out of bounds, a panic (`none` in the model). -/
theorem claim_C3_decode_usize_empty_panics : decode_usize [] = none := rfl

/-- Claim C4 counterexample: encoding `false` does not emit the empty payload;
it emits the single zero byte. -/
theorem claim_C4_counterexample :
    bool_rlp_append false = [0] ∧ bool_rlp_append false ≠ [] := by
  exact ⟨rfl, by decide⟩

/-- Claim C4 amended: encoding `false` emits the single-byte payload `[0x00]`
and encoding `true` emits `[0x01]`. -/
theorem claim_C4_amended_bool_encode :
    bool_rlp_append false = [0] ∧ bool_rlp_append true = [1] :=
  ⟨rfl, rfl⟩

/-- Claim C5 counterexample: the 2-byte payload `[0x02, 0x00]` decoded at the
1-byte signed target (`i8`) does not fail with `RlpIsTooBig`; it decodes
through the 128-bit intermediate and silently truncates to 0. -/
theorem claim_C5_counterexample :
    decode_i 1 [2, 0] = Except.ok 0 ∧
    decode_i 1 [2, 0] ≠ Except.error DecoderError.RlpIsTooBig := by
  refine ⟨?_, ?_⟩
  · rfl
  · intro h
    rw [show decode_i 1 [2, 0] = Except.ok 0 from rfl] at h
    exact Except.noConfusion h

/-- Claim C5 amended: for every signed target width, only a payload longer
than 16 bytes (the shared `i128` intermediate width) fails with `RlpIsTooBig`;
payloads of at most 16 bytes are decoded through the 128-bit zigzag and
narrowed with truncating two's-complement semantics, which can silently
truncate for narrower targets. -/
theorem claim_C5_amended_signed_width_bound :
    (∀ W : Nat, ∀ bytes : List Nat, 16 < bytes.length →
      decode_i W bytes = Except.error DecoderError.RlpIsTooBig) ∧
    decode_i 1 [2, 0] = Except.ok 0 := by
  constructor
  · intro W bytes h
    have hu : decode_u 16 bytes = Except.error DecoderError.RlpIsTooBig := by
      rw [decode_u, if_neg (by omega), if_neg (by omega)]
    simp only [decode_i, hu]
  · rfl

/-- Witness for the amended C5 at a 17-byte payload decoded as `i16`. -/
theorem claim_C5_witness :
    decode_i 2 (List.replicate 17 1) = Except.error DecoderError.RlpIsTooBig :=
  claim_C5_amended_signed_width_bound.1 2 (List.replicate 17 1) (by simp)

set_option maxRecDepth 20000 in
/-- Claim C6: every signed value of byte width `W` (1, 2, 4, 8 or 16, i.e.
i8 through i128) round-trips through the zigzag codec, including the minimum
representable value of each width; the 8-bit encodings of -1 and of 1 are
each a 1-byte payload. -/
theorem claim_C6_signed_roundtrip :
    (∀ W : Nat, 1 ≤ W → W ≤ 16 → ∀ v : Int,
      -(2 ^ (8 * W - 1)) ≤ v → v < 2 ^ (8 * W - 1) →
      decode_i W (encode_i v) = Except.ok v) ∧
    (encode_i (-1)).length = 1 ∧ (encode_i 1).length = 1 := by
  refine ⟨?_, ?_, ?_⟩
  · intro W hW1 hW16 v h1 h2
    have hle : ((2 : Int) ^ (8 * W - 1)) ≤ 2 ^ 127 :=
      pow_le_pow_right₀ (by norm_num) (by omega)
    have hv127 : v < 2 ^ 127 := lt_of_lt_of_le h2 hle
    have hv127n : -(2 ^ 127) ≤ v := le_trans (neg_le_neg hle) h1
    have hz : zigzagEnc v < 2 ^ 128 := by
      rw [zigzagEnc]
      refine Nat.xor_lt_two_pow (Nat.mod_lt _ (by positivity)) ?_
      split <;> omega
    have h256 : zigzagEnc v < 256 ^ 16 := by
      have hpow : (256 : Nat) ^ 16 = 2 ^ 128 := by norm_num
      omega
    rw [encode_i]
    simp only [decode_i, roundtrip_u 16 (zigzagEnc v) h256]
    rw [zigzag_inverse v hv127n hv127, i_narrow_toU128 W hW1 hW16 v h1 h2]
  · decide
  · decide

/-- Witness for C6 at the minimum `i8` value. -/
theorem claim_C6_witness :
    decode_i 1 (encode_i (-128)) = Except.ok (-128) :=
  claim_C6_signed_roundtrip.1 1 (by norm_num) (by norm_num) (-128)
    (by norm_num) (by norm_num)

/-- Claim C7: every f32/f64 bit pattern (NaN payloads, negative zero and
infinities included) round-trips through the float codec, and the float
decoder succeeds or fails exactly as the same-width unsigned decoder does —
there is no separate float decode error. -/
theorem claim_C7_float_bits :
    (∀ bits : Nat, bits < 2 ^ 32 →
      f32_decode (f32_rlp_append bits) = Except.ok bits) ∧
    (∀ bits : Nat, bits < 2 ^ 64 →
      f64_decode (f64_rlp_append bits) = Except.ok bits) ∧
    (∀ bytes : List Nat, ∀ v : Nat, decode_u 4 bytes = Except.ok v →
      f32_decode bytes = Except.ok v) ∧
    (∀ bytes : List Nat, ∀ err, decode_u 4 bytes = Except.error err →
      f32_decode bytes = Except.error err) ∧
    (∀ bytes : List Nat, ∀ v : Nat, decode_u 8 bytes = Except.ok v →
      f64_decode bytes = Except.ok v) ∧
    (∀ bytes : List Nat, ∀ err, decode_u 8 bytes = Except.error err →
      f64_decode bytes = Except.error err) := by
  refine ⟨?_, ?_, ?_, ?_, ?_, ?_⟩
  · intro bits h
    have h4 : bits < 256 ^ 4 := by norm_num at h ⊢; omega
    rw [f32_rlp_append]
    simp only [f32_decode, roundtrip_u 4 bits h4]
  · intro bits h
    have h8 : bits < 256 ^ 8 := by norm_num at h ⊢; omega
    rw [f64_rlp_append]
    simp only [f64_decode, roundtrip_u 8 bits h8]
  · intro bytes v h
    simp only [f32_decode, h]
  · intro bytes err h
    simp only [f32_decode, h]
  · intro bytes v h
    simp only [f64_decode, h]
  · intro bytes err h
    simp only [f64_decode, h]

/-- Witness for C7 at the f32 negative-zero bit pattern `0x80000000`. -/
theorem claim_C7_witness :
    f32_decode (f32_rlp_append 0x80000000) = Except.ok 0x80000000 :=
  claim_C7_float_bits.1 0x80000000 (by norm_num)

/-- Claim C8: the usize codec is the u64 codec composed with the host width
conversions — encoding a usize emits exactly the bytes of the value encoded at
64-bit width, decoding is the u64 decode followed by the narrowing conversion,
and every value below `2 ^ 64` round-trips. -/
theorem claim_C8_usize_is_u64 :
    (∀ v : Nat, v < 2 ^ 64 → usize_rlp_append v = encode_u 8 v) ∧
    (∀ bytes : List Nat,
      usize_decode bytes = (decode_u 8 bytes).map (fun value => value % 2 ^ 64)) ∧
    (∀ v : Nat, v < 2 ^ 64 → usize_decode (usize_rlp_append v) = Except.ok v) := by
  refine ⟨?_, ?_, ?_⟩
  · intro v hv
    rw [usize_rlp_append, Nat.mod_eq_of_lt hv]
  · intro bytes
    rfl
  · intro v hv
    have h8 : v < 256 ^ 8 := by norm_num at hv ⊢; omega
    rw [usize_rlp_append, Nat.mod_eq_of_lt hv, usize_decode, roundtrip_u 8 v h8]
    simp only [Except.map]
    rw [Nat.mod_eq_of_lt hv]

/-- Witness for C8 at a small value. -/
theorem claim_C8_witness : usize_decode (usize_rlp_append 5) = Except.ok 5 :=
  claim_C8_usize_is_u64.2.2 5 (by norm_num)

/-- Claim C9: for each supported fixed array size, decoding a payload shorter
than the size fails with `RlpIsTooShort`, longer fails with `RlpIsTooBig`, and
exactly the size succeeds with the payload copied verbatim. -/
theorem claim_C9_array_exact :
    ∀ N, N ∈ ([4, 8, 16, 32, 64, 128] : List Nat) → ∀ bytes : List Nat,
      (bytes.length < N →
        decode_array N bytes = Except.error DecoderError.RlpIsTooShort) ∧
      (N < bytes.length →
        decode_array N bytes = Except.error DecoderError.RlpIsTooBig) ∧
      (bytes.length = N → decode_array N bytes = Except.ok bytes) := by
  intro N _ bytes
  refine ⟨?_, ?_, ?_⟩ <;> intro h
  · rw [decode_array, Nat.compare_eq_lt.mpr h]
  · rw [decode_array, Nat.compare_eq_gt.mpr h]
  · rw [decode_array, Nat.compare_eq_eq.mpr h]

/-- Witness for C9: a 32-byte payload decodes verbatim at size 32. -/
theorem claim_C9_witness :
    decode_array 32 (List.replicate 32 7) = Except.ok (List.replicate 32 7) :=
  (claim_C9_array_exact 32 (by decide) (List.replicate 32 7)).2.2 (by simp)

/-- Claim C10: the Option codec encodes absence as a 0-child list node and
presence as a 1-child list node holding the child's encoding; decoding maps
child count 0 to absence, child count 1 to the decoded child, and any other
child count to `RlpIncorrectListLen`. -/
theorem claim_C10_option_arity :
    (∀ (α : Type) (enc : α → Node),
      option_rlp_append enc (Option.none : Option α) = Node.list []) ∧
    (∀ (α : Type) (enc : α → Node) (v : α),
      option_rlp_append enc (Option.some v) = Node.list [enc v]) ∧
    (∀ (α : Type) (dec : Node → Except DecoderError α),
      option_decode dec [] = Except.ok Option.none) ∧
    (∀ (α : Type) (dec : Node → Except DecoderError α) (child : Node),
      option_decode dec [child] = (dec child).map Option.some) ∧
    (∀ (α : Type) (dec : Node → Except DecoderError α) (children : List Node),
      2 ≤ children.length →
      option_decode dec children = Except.error DecoderError.RlpIncorrectListLen) := by
  refine ⟨fun α enc => rfl, fun α enc v => rfl, fun α dec => rfl,
    fun α dec child => rfl, ?_⟩
  intro α dec children h
  match children with
  | c1 :: c2 :: rest => rfl

/-- Witness for C10: a 2-child list is rejected. -/
theorem claim_C10_witness :
    option_decode (fun _ => Except.ok (0 : Nat)) [Node.list [], Node.list []] =
      Except.error DecoderError.RlpIncorrectListLen :=
  claim_C10_option_arity.2.2.2.2 Nat (fun _ => Except.ok 0)
    [Node.list [], Node.list []] (by simp)
